import Mathlib

/-!
Verification of the input-line parsing pipeline of a small POSIX-shell-like
command-line interpreter.  The pipeline turns one line of text into a list of
command descriptors: tokenizer → pipe splitter → quote classifier → variable
expander → command producer.

The Lean definitions below are a shallow embedding of the Rust sources:
  - src/src/modules/input/input_processor.rs  (CommandProducer, InputProcessor,
    parse_fd_redirect, split_on_pipes_tokens)
  - src/src/modules/input/quote_handler.rs    (QuoteHandler, unescape functions)
  - src/src/modules/input/expander.rs         (Expander::expand_vars and friends)
  - src/src/modules/input/token.rs, errors.rs, environment.rs
  - src/src/modules/command.rs                (Command descriptor)
Strings are modelled as Lean `String` / `List Char`; the Rust `HashMap`
environment is modelled as an association list with first-match lookup
(keys are unique in the `HashMap`, so first-match agrees with it).
-/

/-- The character `\` (kept as a named constant). -/
def bslash : Char := Char.ofNat 92

/-- The character `'`. -/
def squote : Char := Char.ofNat 39

/-- The character `"`. -/
def dquote : Char := Char.ofNat 34

/-- The sentinel control character U+0001 used by `expand_vars` to protect
escaped dollar signs (expander.rs, `const S: char`). -/
def sentinel : Char := Char.ofNat 1

/-- The environment: variable name to value, first-match lookup
(environment.rs, `Environment` over a `HashMap`). -/
def Env : Type := List (String × String)

/-- `Environment::get` (environment.rs). -/
def envGet : Env → String → Option String
  | [], _ => none
  | (k, v) :: rest, key => if k = key then some v else envGet rest key

/-- `env.get(name).unwrap_or(default)` as used in expander.rs. -/
def envGetD (env : Env) (key : String) (d : String) : String :=
  (envGet env key).getD d

/-- Token quoting mode (token.rs, `TokenMode`). -/
inductive TokenMode where
  | Raw
  | Weak
  | Full
  deriving DecidableEq, Repr

/-- A classified token (token.rs, `Token`). -/
structure Token where
  value : String
  mode : TokenMode
  deriving DecidableEq, Repr

/-- Error taxonomy (errors.rs, `CliError`). -/
inductive CliError where
  | Tokenization (msg : String)
  | Quote (msg : String)
  | Expansion (msg : String)
  | EmptyCommand
  deriving DecidableEq, Repr

/-- Command descriptor (modules/command.rs, `Command`; this is the variant
with stderr fields that `produce_command` populates). -/
structure Command where
  name : String
  args : List String
  stdin : Option String
  stdout : Option String
  append_stdout : Bool
  stderr : Option String
  append_stderr : Bool
  deriving DecidableEq, Repr

deriving instance DecidableEq for Except

/-! ## Tokenizer

Modelled from the spec: the file src/src/modules/input/tokenizer.rs is absent
from the repository snapshot (mod.rs declares `pub mod tokenizer;` and
input_processor.rs calls `Tokenizer::tokenize`).  The definition below follows
spec section 4.1 word for word; it also coincides, case by case, with the
repository's tokenizer of the same name in src/input-handler/src/tokenizer.rs
(single left-to-right scan with a quote-state variable, delimiters retained,
backslash appends the following character verbatim, unclosed quote is the only
error, trailing buffer flushed). -/

/-- Flush the token buffer: a non-empty buffer becomes one raw token. -/
def flushBuf (buf : List Char) : List String :=
  if buf = [] then [] else [String.mk buf]

/-- Modelled from the spec: the tokenizer scan loop (spec section 4.1;
matches `Tokenizer::tokenize` in src/input-handler/src/tokenizer.rs). -/
def tokenizeGo : Option Char → List Char → List String → List Char → Except CliError (List String)
  | q, buf, acc, [] =>
    if q.isSome then .error (.Quote "unclosed quote") else .ok (acc ++ flushBuf buf)
  | q, buf, acc, c :: rest =>
    match q with
    | none =>
      if c = ' ' ∨ c = '\t' then tokenizeGo none [] (acc ++ flushBuf buf) rest
      else if c = squote ∨ c = dquote then tokenizeGo (some c) (buf ++ [c]) acc rest
      else if c = bslash then
        match rest with
        | [] => .ok (acc ++ flushBuf (buf ++ [bslash]))
        | n :: rest2 => tokenizeGo none (buf ++ [bslash, n]) acc rest2
      else tokenizeGo none (buf ++ [c]) acc rest
    | some qc =>
      if c = qc then tokenizeGo none (buf ++ [c]) acc rest
      else if c = bslash then
        match rest with
        | [] => .error (.Quote "unclosed quote")
        | n :: rest2 => tokenizeGo (some qc) (buf ++ [bslash, n]) acc rest2
      else tokenizeGo (some qc) (buf ++ [c]) acc rest

/-- Modelled from the spec: `tokenize(line)` (spec section 4.1; matches
`Tokenizer::tokenize` in src/input-handler/src/tokenizer.rs). -/
def tokenize (line : String) : Except CliError (List String) :=
  tokenizeGo none [] [] line.toList

/-! ## Pipe splitter (input_processor.rs, `split_on_pipes_tokens`) -/

/-- The loop of `split_on_pipes_tokens`: `cur` is the group being built. -/
def splitGo : List String → List String → List (List String)
  | [], cur => if cur = [] then [] else [cur]
  | t :: ts, cur => if t = "|" then cur :: splitGo ts [] else splitGo ts (cur ++ [t])

/-- `split_on_pipes_tokens` (input_processor.rs, lines 162-176). -/
def split_on_pipes_tokens (raw : List String) : List (List String) :=
  splitGo raw []

/-! ## Quote classifier (quote_handler.rs) -/

/-- `unescape_double_quoted` (quote_handler.rs, lines 27-47): a backslash
followed by `$` is kept as the two characters; a backslash followed by any
other character yields that character alone; a trailing lone backslash is
dropped. -/
def unescape_double_quoted : List Char → List Char
  | [] => []
  | [c] => if c = bslash then [] else [c]
  | c :: d :: rest =>
    if c = bslash then
      (if d = '$' then bslash :: '$' :: unescape_double_quoted rest
       else d :: unescape_double_quoted rest)
    else c :: unescape_double_quoted (d :: rest)

/-- `unescape_unquoted` (quote_handler.rs, lines 48-67); its body is
identical to `unescape_double_quoted`. -/
def unescape_unquoted : List Char → List Char
  | [] => []
  | [c] => if c = bslash then [] else [c]
  | c :: d :: rest =>
    if c = bslash then
      (if d = '$' then bslash :: '$' :: unescape_unquoted rest
       else d :: unescape_unquoted rest)
    else c :: unescape_unquoted (d :: rest)

/-- Classification of one raw token (body of the loop in
`QuoteHandler::handle`, quote_handler.rs lines 9-21). -/
def handlePiece (s : String) : Token :=
  let l := s.toList
  if l.head? = some squote ∧ l.getLast? = some squote ∧ 2 ≤ l.length then
    ⟨String.mk ((l.drop 1).dropLast), TokenMode.Raw⟩
  else if l.head? = some dquote ∧ l.getLast? = some dquote ∧ 2 ≤ l.length then
    ⟨String.mk (unescape_double_quoted ((l.drop 1).dropLast)), TokenMode.Weak⟩
  else
    ⟨String.mk (unescape_unquoted l), TokenMode.Full⟩

/-- `QuoteHandler::handle` (quote_handler.rs, lines 7-24): classifies every
raw token; it never fails. -/
def handle (raw : List String) : Except CliError (List Token) :=
  .ok (raw.map handlePiece)

/-! ## Expander (expander.rs) -/

/-- Identifier-start test: `next_char.is_ascii_alphabetic() || next_char == '_'`
(expander.rs, line 69). -/
def isIdentStart (c : Char) : Bool :=
  c.isAlpha || c = '_'

/-- Identifier-character test: `ch.is_ascii_alphanumeric() || ch == '_'`
(expander.rs, line 77). -/
def isIdentChar (c : Char) : Bool :=
  c.isAlphanum || c = '_'

/-- Step 1 of `expand_vars` (expander.rs, lines 36-52): replace `\$` by the
sentinel, leave any other backslash in place. -/
def protect : List Char → List Char
  | [] => []
  | [c] => if c = bslash then [bslash] else [c]
  | c :: d :: rest =>
    if c = bslash then
      (if d = '$' then sentinel :: protect rest else bslash :: protect (d :: rest))
    else c :: protect (d :: rest)

/-- Step 2 of `expand_vars` (expander.rs, lines 54-59): leftmost,
non-overlapping replacement of every match of the regular expression for a
braced variable by the environment value (empty string when undefined); the
scan is fuelled by the input length (each step consumes at least one
character, so fuel equal to the length never runs out). -/
def bracedScanF (env : Env) : Nat → List Char → List Char
  | 0, l => l
  | _ + 1, [] => []
  | f + 1, x :: xs =>
    if x = '$' then
      match xs with
      | [] => ['$']
      | y :: ys =>
        if y = '{' then
          match ys with
          | [] => '$' :: bracedScanF env f xs
          | c :: cs =>
            if isIdentStart c then
              match cs.dropWhile isIdentChar with
              | z :: rest =>
                if z = '}' then
                  (envGetD env (String.mk (c :: cs.takeWhile isIdentChar)) "").toList
                    ++ bracedScanF env f rest
                else '$' :: bracedScanF env f xs
              | [] => '$' :: bracedScanF env f xs
            else '$' :: bracedScanF env f xs
        else '$' :: bracedScanF env f xs
    else x :: bracedScanF env f xs

/-- Step 2 of `expand_vars` with fuel set to the input length. -/
def bracedScan (env : Env) (l : List Char) : List Char :=
  bracedScanF env l.length l

/-- The backoff loop of step 3 of `expand_vars` (expander.rs, lines 84-95):
try the candidate name of `k` characters, from the longest down to one
character; on success return the value together with the rest of the input
after the matched name. -/
def backoff (env : Env) (l : List Char) : Nat → Option (String × List Char)
  | 0 => none
  | k + 1 =>
    match envGet env (String.mk (l.take (k + 1))) with
    | some v => some (v, l.drop (k + 1))
    | none => backoff env l k

/-- Step 3 of `expand_vars` (expander.rs, lines 61-112): bare `$NAME`
resolution with longest-match-with-backoff, fuelled by the input length. -/
def bareScanF (env : Env) : Nat → List Char → List Char
  | 0, l => l
  | _ + 1, [] => []
  | f + 1, x :: xs =>
    if x = '$' then
      match xs with
      | [] => ['$']
      | c :: cs =>
        if isIdentStart c then
          match backoff env (c :: cs) (((c :: cs).takeWhile isIdentChar).length) with
          | some (v, rest) => v.toList ++ bareScanF env f rest
          | none => '$' :: bareScanF env f (c :: cs)
        else '$' :: bareScanF env f (c :: cs)
    else x :: bareScanF env f xs

/-- Step 3 of `expand_vars` with fuel set to the input length. -/
def bareScan (env : Env) (l : List Char) : List Char :=
  bareScanF env l.length l

/-- Step 4 of `expand_vars` (expander.rs, lines 114-118): restore every
sentinel to a literal dollar sign. -/
def restore (l : List Char) : List Char :=
  l.map fun c => if c = sentinel then '$' else c

/-- `Expander::expand_vars` (expander.rs, lines 35-119). -/
def expand_vars (env : Env) (s : String) : String :=
  String.mk (restore (bareScan env (bracedScan env (protect s.toList))))

/-- The pure result of expanding one token (the match inside
`Expander::expand_token`, expander.rs lines 29-32). -/
def expandPure (env : Env) (t : Token) : String :=
  match t.mode with
  | TokenMode.Raw => t.value
  | TokenMode.Weak => expand_vars env t.value
  | TokenMode.Full => expand_vars env t.value

/-- `Expander::expand_token` (expander.rs, lines 28-33): always `Ok`. -/
def expand_token (env : Env) (t : Token) : Except CliError String :=
  .ok (expandPure env t)

/-- `Expander::expand_tokens` (expander.rs, lines 21-26): the fallible
`collect` over `expand_token`, stopping at the first error. -/
def expand_tokens (env : Env) : List Token → Except CliError (List String)
  | [] => .ok []
  | t :: ts =>
    match expand_token env t with
    | .error e => .error e
    | .ok s =>
      match expand_tokens env ts with
      | .error e => .error e
      | .ok ss => .ok (s :: ss)

/-! ## Command producer (input_processor.rs) -/

/-- Digit-string value. -/
def digitsVal (l : List Char) : Nat :=
  l.foldl (fun a c => 10 * a + (c.toNat - 48)) 0

/-- Rust `str::parse::<u32>`: an optional leading `+`, then at least one
ASCII digit, value below `2 ^ 32`. -/
def parseU32chars (l : List Char) : Option Nat :=
  let ds := if l.head? = some '+' then l.drop 1 else l
  if ds ≠ [] ∧ ds.all Char.isDigit then
    (if digitsVal ds < 2 ^ 32 then some (digitsVal ds) else none)
  else none

/-- `parse_fd_redirect` (input_processor.rs, lines 144-158): recognize
`<digits>>>` (append) else `<digits>>` (overwrite). -/
def parse_fd_redirect (s : String) : Option (Nat × Bool) :=
  let l := s.toList
  if 2 ≤ l.length ∧ l.drop (l.length - 2) = ['>', '>'] then
    (parseU32chars (l.take (l.length - 2))).map fun fd => (fd, true)
  else if 1 ≤ l.length ∧ l.drop (l.length - 1) = ['>'] then
    (parseU32chars (l.take (l.length - 1))).map fun fd => (fd, false)
  else none

/-- The mutable state of the `produce_command` loop (args and the five
redirection fields, input_processor.rs lines 24-29). -/
structure RedirState where
  args : List String
  stdin : Option String
  stdout : Option String
  append_stdout : Bool
  stderr : Option String
  append_stderr : Bool
  deriving DecidableEq, Repr

/-- The initial state of the `produce_command` loop. -/
def initState : RedirState :=
  ⟨[], none, none, false, none, false⟩

/-- The scan loop of `produce_command` (input_processor.rs, lines 31-87):
one piece of lookahead, `it.next()` modelled by taking the head of the rest
(yielding `none` at the end of the list). -/
def prodGo : RedirState → List String → RedirState
  | st, [] => st
  | st, [p] =>
    if p = "<" ∨ p = "0<" then { st with stdin := none }
    else if p = ">" ∨ p = "1>" then { st with stdout := none, append_stdout := false }
    else if p = ">>" ∨ p = "1>>" then { st with stdout := none, append_stdout := true }
    else if p = "2>" then { st with stderr := none, append_stderr := false }
    else if p = "2>>" then { st with stderr := none, append_stderr := true }
    else
      match parse_fd_redirect p with
      | some (fd, app) =>
        if fd = 0 ∧ app = false then { st with stdin := none }
        else if fd = 1 then { st with stdout := none, append_stdout := app }
        else if fd = 2 then { st with stderr := none, append_stderr := app }
        else { st with args := st.args ++ [p] }
      | none => { st with args := st.args ++ [p] }
  | st, p :: t :: rest =>
    if p = "<" ∨ p = "0<" then prodGo { st with stdin := some t } rest
    else if p = ">" ∨ p = "1>" then
      prodGo { st with stdout := some t, append_stdout := false } rest
    else if p = ">>" ∨ p = "1>>" then
      prodGo { st with stdout := some t, append_stdout := true } rest
    else if p = "2>" then prodGo { st with stderr := some t, append_stderr := false } rest
    else if p = "2>>" then prodGo { st with stderr := some t, append_stderr := true } rest
    else
      match parse_fd_redirect p with
      | some (fd, app) =>
        if fd = 0 ∧ app = false then prodGo { st with stdin := some t } rest
        else if fd = 1 then prodGo { st with stdout := some t, append_stdout := app } rest
        else if fd = 2 then prodGo { st with stderr := some t, append_stderr := app } rest
        else prodGo { st with args := st.args ++ [p, t] } rest
      | none => prodGo { st with args := st.args ++ [p] } (t :: rest)

/-- `CommandProducer::produce_command` (input_processor.rs, lines 19-95). -/
def produce_command : List String → Except CliError Command
  | [] => .error .EmptyCommand
  | name :: rest =>
    let st := prodGo initState rest
    .ok ⟨name, st.args, st.stdin, st.stdout, st.append_stdout, st.stderr, st.append_stderr⟩

/-! ## Top-level processor (input_processor.rs, `InputProcessor::process`) -/

/-- The per-segment loop of `InputProcessor::process` (input_processor.rs,
lines 132-137): classify, expand, produce; stop at the first error. -/
def processParts (env : Env) : List (List String) → Except CliError (List Command)
  | [] => .ok []
  | part :: rest =>
    match handle part with
    | .error e => .error e
    | .ok toks =>
      match expand_tokens env toks with
      | .error e => .error e
      | .ok pieces =>
        match produce_command pieces with
        | .error e => .error e
        | .ok cmd =>
          match processParts env rest with
          | .error e => .error e
          | .ok cmds => .ok (cmd :: cmds)

/-- `InputProcessor::process` (input_processor.rs, lines 124-139). -/
def process (line : String) (env : Env) : Except CliError (List Command) :=
  match tokenize line with
  | .error e => .error e
  | .ok raw => processParts env (split_on_pipes_tokens raw)

/-- Composition tokenize-classify-expand of a whole line (the pipeline of
spec section 8, "Quote literalness", without pipe splitting). -/
def tokenize_classify_expand (env : Env) (line : String) : Except CliError (List String) :=
  match tokenize line with
  | .error e => .error e
  | .ok raw =>
    match handle raw with
    | .error e => .error e
    | .ok toks => expand_tokens env toks

/-! ## Specification-side pipe splitting

The two definitions below follow the words of spec section 4.2 ("one group
per segment, preserving order; a trailing empty group is dropped") and are
compared with `split_on_pipes_tokens` in the theorem for the corresponding
claim. -/

/-- Modelled from the spec: the naive split of the token sequence at every
`|` token, producing one group per segment (`n + 1` groups for `n` pipes). -/
def splitSpecGroups : List String → List (List String)
  | [] => [[]]
  | t :: ts =>
    if t = "|" then [] :: splitSpecGroups ts
    else
      match splitSpecGroups ts with
      | [] => [[t]]
      | g :: gs => (t :: g) :: gs

/-- Modelled from the spec: drop the trailing group when it is empty. -/
def dropTrailingEmptyGroup (gs : List (List String)) : List (List String) :=
  if gs.getLast? = some [] then gs.dropLast else gs

/-! ## Helper lemmas -/

/-- One-step unfolding of `bareScanF` on a cons cell. -/
theorem bareScanF_succ (env : Env) (f : Nat) (x : Char) (xs : List Char) :
    bareScanF env (f + 1) (x :: xs) =
      if x = '$' then
        match xs with
        | [] => ['$']
        | c :: cs =>
          if isIdentStart c then
            match backoff env (c :: cs) (((c :: cs).takeWhile isIdentChar).length) with
            | some (v, rest) => v.toList ++ bareScanF env f rest
            | none => '$' :: bareScanF env f (c :: cs)
          else '$' :: bareScanF env f (c :: cs)
      else x :: bareScanF env f xs := rfl

/-- When the backoff loop succeeds, the name it found is a non-empty prefix
of the scanned text and the returned rest is the input after that name. -/
theorem backoff_shrink (env : Env) (l : List Char) :
    ∀ n v r, backoff env l n = some (v, r) → ∃ k, 1 ≤ k ∧ k ≤ n ∧ r = l.drop k := by
  intro n
  induction n with
  | zero => intro v r h; exact absurd h (by simp [backoff])
  | succ m ih =>
    intro v r h
    cases hg : envGet env (String.mk (l.take (m + 1))) with
    | some w =>
      simp only [backoff, hg] at h
      obtain ⟨hv, hr⟩ := Prod.mk.injEq .. ▸ Option.some.inj h
      exact ⟨m + 1, by omega, le_refl _, hr.symm⟩
    | none =>
      simp only [backoff, hg] at h
      obtain ⟨k, h1, h2, h3⟩ := ih v r h
      exact ⟨k, h1, by omega, h3⟩

/-- The backoff loop returns the value of the longest defined candidate. -/
theorem backoff_found (env : Env) (l : List Char) (k : Nat) (v : String)
    (hk1 : 1 ≤ k) :
    ∀ n, k ≤ n → envGet env (String.mk (l.take k)) = some v →
      (∀ j, k < j → j ≤ n → envGet env (String.mk (l.take j)) = none) →
      backoff env l n = some (v, l.drop k) := by
  intro n
  induction n with
  | zero => intro hkn _ _; omega
  | succ m ih =>
    intro hkn hv hmax
    by_cases hkm : k = m + 1
    · subst hkm
      simp only [backoff, hv]
    · have hnone : envGet env (String.mk (l.take (m + 1))) = none :=
        hmax (m + 1) (by omega) (le_refl _)
      simp only [backoff, hnone]
      exact ih (by omega) hv fun j hj1 hj2 => hmax j hj1 (by omega)

/-- The backoff loop fails when no candidate is defined. -/
theorem backoff_none (env : Env) (l : List Char) :
    ∀ n, (∀ j, 1 ≤ j → j ≤ n → envGet env (String.mk (l.take j)) = none) →
      backoff env l n = none := by
  intro n
  induction n with
  | zero => intro _; rfl
  | succ m ih =>
    intro h
    have hm : envGet env (String.mk (l.take (m + 1))) = none := h (m + 1) (by omega) (le_refl _)
    simp only [backoff, hm]
    exact ih fun j a b => h j a (by omega)

/-- Any fuel at least the length of the input gives the same result for the
bare-variable scan. -/
theorem bareScanF_congr (env : Env) :
    ∀ f g l, l.length ≤ f → l.length ≤ g → bareScanF env f l = bareScanF env g l := by
  intro f
  induction f with
  | zero =>
    intro g l hf _
    have hl : l = [] := List.length_eq_zero.mp (by omega)
    subst hl
    cases g <;> rfl
  | succ m ih =>
    intro g l hf hg
    cases l with
    | nil => cases g <;> rfl
    | cons x xs =>
      cases g with
      | zero => simp at hg
      | succ gm =>
        rw [bareScanF_succ, bareScanF_succ]
        by_cases hx : x = '$'
        · rw [if_pos hx, if_pos hx]
          cases xs with
          | nil => rfl
          | cons c cs =>
            dsimp only
            simp only [List.length_cons] at hf hg
            by_cases hc : isIdentStart c = true
            · rw [if_pos hc, if_pos hc]
              cases hb : backoff env (c :: cs) (((c :: cs).takeWhile isIdentChar).length) with
              | none =>
                have : bareScanF env m (c :: cs) = bareScanF env gm (c :: cs) :=
                  ih gm (c :: cs) (by simp; omega) (by simp; omega)
                simp only [this]
              | some pr =>
                obtain ⟨v, rest⟩ := pr
                obtain ⟨k, hk1, _, hrest⟩ := backoff_shrink env (c :: cs) _ v rest hb
                have hlen : rest.length ≤ cs.length := by
                  subst hrest
                  rw [List.length_drop]
                  simp
                  omega
                have : bareScanF env m rest = bareScanF env gm rest :=
                  ih gm rest (by omega) (by omega)
                simp only [this]
            · rw [if_neg hc, if_neg hc]
              have : bareScanF env m (c :: cs) = bareScanF env gm (c :: cs) :=
                ih gm (c :: cs) (by simp; omega) (by simp; omega)
              simp only [this]
        · rw [if_neg hx, if_neg hx]
          simp only [List.length_cons] at hf hg
          have : bareScanF env m xs = bareScanF env gm xs := ih gm xs (by omega) (by omega)
          simp only [this]

/-- `expand_tokens` always succeeds and expands the tokens in order. -/
theorem expand_tokens_eq (env : Env) :
    ∀ ts, expand_tokens env ts = .ok (ts.map (expandPure env)) := by
  intro ts
  induction ts with
  | nil => rfl
  | cons t ts ih => simp only [expand_tokens, expand_token, ih, List.map]

/-- One-step unfolding of `unescape_unquoted` on two cons cells. -/
theorem unescape_unquoted_cons2 (c d : Char) (rest : List Char) :
    unescape_unquoted (c :: d :: rest) =
      if c = bslash then
        (if d = '$' then bslash :: '$' :: unescape_unquoted rest
         else d :: unescape_unquoted rest)
      else c :: unescape_unquoted (d :: rest) := rfl

/-- A token value without backslashes is left unchanged by
`unescape_unquoted`. -/
theorem unescape_unquoted_id : ∀ l : List Char, bslash ∉ l → unescape_unquoted l = l := by
  intro l
  induction l with
  | nil => intro _; rfl
  | cons c tl ih =>
    intro h
    have hc : c ≠ bslash := fun he => h (by simp [he])
    have htl : bslash ∉ tl := fun hm => h (by simp [hm])
    cases tl with
    | nil => simp only [unescape_unquoted, if_neg hc]
    | cons d rest => rw [unescape_unquoted_cons2, if_neg hc, ih htl]

/-- End-of-input case of the tokenizer loop. -/
theorem tokenizeGo_nil_error (q : Option Char) (buf : List Char) (acc : List String)
    (e : CliError) (h : tokenizeGo q buf acc [] = .error e) :
    e = .Quote "unclosed quote" := by
  cases q with
  | none => simp [tokenizeGo] at h
  | some qc =>
    simp only [tokenizeGo, Option.isSome_some, if_pos] at h
    injection h with h2
    exact h2.symm

/-- One-step unfolding of the tokenizer loop outside quotes. -/
theorem tokenizeGo_cons_none (buf : List Char) (acc : List String) (c : Char)
    (rest : List Char) :
    tokenizeGo none buf acc (c :: rest) =
      if c = ' ' ∨ c = '\t' then tokenizeGo none [] (acc ++ flushBuf buf) rest
      else if c = squote ∨ c = dquote then tokenizeGo (some c) (buf ++ [c]) acc rest
      else if c = bslash then
        match rest with
        | [] => .ok (acc ++ flushBuf (buf ++ [bslash]))
        | n :: rest2 => tokenizeGo none (buf ++ [bslash, n]) acc rest2
      else tokenizeGo none (buf ++ [c]) acc rest := by
  rw [tokenizeGo.eq_def]

/-- One-step unfolding of the tokenizer loop inside a quote. -/
theorem tokenizeGo_cons_some (qc : Char) (buf : List Char) (acc : List String) (c : Char)
    (rest : List Char) :
    tokenizeGo (some qc) buf acc (c :: rest) =
      if c = qc then tokenizeGo none (buf ++ [c]) acc rest
      else if c = bslash then
        match rest with
        | [] => .error (.Quote "unclosed quote")
        | n :: rest2 => tokenizeGo (some qc) (buf ++ [bslash, n]) acc rest2
      else tokenizeGo (some qc) (buf ++ [c]) acc rest := by
  rw [tokenizeGo.eq_def]

/-- The tokenizer loop can only fail with the unclosed-quote error. -/
theorem tokenizeGo_error :
    ∀ n (l : List Char), l.length ≤ n →
      ∀ q buf acc e, tokenizeGo q buf acc l = .error e → e = .Quote "unclosed quote" := by
  intro n
  induction n with
  | zero =>
    intro l hl q buf acc e h
    have : l = [] := List.length_eq_zero.mp (by omega)
    subst this
    exact tokenizeGo_nil_error q buf acc e h
  | succ m ih =>
    intro l hl q buf acc e h
    cases l with
    | nil => exact tokenizeGo_nil_error q buf acc e h
    | cons c rest =>
      simp only [List.length_cons] at hl
      cases q with
      | none =>
        rw [tokenizeGo_cons_none] at h
        split_ifs at h with h1 h2 h3
        · exact ih rest (by omega) _ _ _ _ h
        · exact ih rest (by omega) _ _ _ _ h
        · cases rest with
          | nil => simp at h
          | cons d rest2 =>
            simp only [List.length_cons] at hl
            exact ih rest2 (by omega) _ _ _ _ h
        · exact ih rest (by omega) _ _ _ _ h
      | some qc =>
        rw [tokenizeGo_cons_some] at h
        split_ifs at h with h1 h2
        · exact ih rest (by omega) _ _ _ _ h
        · cases rest with
          | nil =>
            injection h with h2
            exact h2.symm
          | cons d rest2 =>
            simp only [List.length_cons] at hl
            exact ih rest2 (by omega) _ _ _ _ h
        · exact ih rest (by omega) _ _ _ _ h

/-- The only failure mode of `tokenize` is the unclosed-quote error. -/
theorem tokenize_error (line : String) (e : CliError) (h : tokenize line = .error e) :
    e = .Quote "unclosed quote" :=
  tokenizeGo_error line.toList.length line.toList (le_refl _) none [] [] e h

/-- `produce_command` on a non-empty pieces list always succeeds, with the
first piece as the name. -/
theorem produce_command_cons (p : String) (rest : List String) :
    produce_command (p :: rest) =
      .ok ⟨p, (prodGo initState rest).args, (prodGo initState rest).stdin,
        (prodGo initState rest).stdout, (prodGo initState rest).append_stdout,
        (prodGo initState rest).stderr, (prodGo initState rest).append_stderr⟩ := rfl

/-- The per-segment loop fails exactly on an empty group, and then only with
the empty-command error. -/
theorem processParts_error (env : Env) :
    ∀ parts, ((∃ e, processParts env parts = .error e) ↔ [] ∈ parts)
      ∧ (∀ e, processParts env parts = .error e → e = .EmptyCommand) := by
  intro parts
  induction parts with
  | nil =>
    refine ⟨⟨fun ⟨e, h⟩ => by simp [processParts] at h, fun h => by simp at h⟩, ?_⟩
    intro e h
    simp [processParts] at h
  | cons part rest ih =>
    simp only [processParts, handle, expand_tokens_eq]
    cases part with
    | nil =>
      simp only [List.map_nil, produce_command]
      refine ⟨⟨fun _ => by simp, fun _ => ⟨.EmptyCommand, rfl⟩⟩, ?_⟩
      intro e h
      injection h with h2
      exact h2.symm
    | cons p ps =>
      simp only [List.map_cons, produce_command_cons]
      cases hrest : processParts env rest with
      | error e =>
        simp only []
        constructor
        · constructor
          · intro _
            exact List.mem_cons_of_mem _ (ih.1.mp ⟨e, hrest⟩)
          · intro _
            exact ⟨e, rfl⟩
        · intro e2 h2
          exact ih.2 e2 (hrest.trans (Except.error.inj h2 ▸ rfl))
      | ok cmds =>
        simp only []
        constructor
        · constructor
          · intro ⟨e, he⟩
            simp at he
          · intro hmem
            rcases List.mem_cons.mp hmem with hh | ht
            · exact absurd hh.symm (List.cons_ne_nil p ps)
            · exact absurd hrest (by
                obtain ⟨e, he⟩ := ih.1.mpr ht
                simp [he])
        · intro e h
          simp at h

/-- The naive split always produces at least one group. -/
theorem splitSpecGroups_ne_nil : ∀ ts, splitSpecGroups ts ≠ [] := by
  intro ts
  cases ts with
  | nil => simp [splitSpecGroups]
  | cons t ts =>
    simp only [splitSpecGroups]
    split_ifs
    · simp
    · cases splitSpecGroups ts <;> simp

/-- The accumulator form of the split loop against the specification-side
split: the current group is prepended to the first naive group, and the
trailing empty group (if any) is dropped. -/
theorem splitGo_spec :
    ∀ (ts cur : List String),
      splitGo ts cur =
        dropTrailingEmptyGroup
          (match splitSpecGroups ts with
           | [] => [cur]
           | g :: gs => (cur ++ g) :: gs) := by
  intro ts
  induction ts with
  | nil =>
    intro cur
    by_cases hc : cur = [] <;>
      simp [splitGo, splitSpecGroups, dropTrailingEmptyGroup, hc]
  | cons t ts ih =>
    intro cur
    by_cases ht : t = "|"
    · cases hg : splitSpecGroups ts with
      | nil => exact absurd hg (splitSpecGroups_ne_nil ts)
      | cons g gs =>
        have ihcur := ih []
        rw [hg] at ihcur
        simp only [List.nil_append] at ihcur
        simp only [splitGo, if_pos ht, splitSpecGroups, hg, ihcur]
        by_cases hLast : (g :: gs).getLast? = some [] <;>
          simp [dropTrailingEmptyGroup, hLast, List.getLast?_cons_cons]
    · cases hg : splitSpecGroups ts with
      | nil => exact absurd hg (splitSpecGroups_ne_nil ts)
      | cons g gs =>
        have ihcur := ih (cur ++ [t])
        rw [hg] at ihcur
        simp only [splitGo, if_neg ht, splitSpecGroups, hg, ihcur, List.append_assoc,
          List.singleton_append]

/-- One-step unfolding of the bare scan at a dollar sign followed by at
least one character. -/
theorem bareScanF_dollar (env : Env) (f : Nat) (c : Char) (cs : List Char) :
    bareScanF env (f + 1) ('$' :: c :: cs) =
      if isIdentStart c then
        match backoff env (c :: cs) (((c :: cs).takeWhile isIdentChar).length) with
        | some (v, rest) => v.toList ++ bareScanF env f rest
        | none => '$' :: bareScanF env f (c :: cs)
      else '$' :: bareScanF env f (c :: cs) := rfl

/-! ## Claims -/

/-- Claim C1: after braced forms are resolved, each dollar sign followed by
an identifier-start character is resolved by longest-match-with-backoff over
the maximal identifier run: the longest defined candidate name is replaced
by its value and scanning continues after the name (first conjunct); when no
candidate is defined the dollar sign is emitted literally and the scan
resumes one character later (second conjunct, and third conjunct for a
dollar sign not followed by an identifier-start character; fourth conjunct
for ordinary characters); with `A=1` and `B=2`, `pre$A$Bp` expands to
`pre12p` and `${A}${B}` expands to `12` (last conjuncts). -/
theorem C1_longest_match_backoff :
    (∀ (env : Env) (c : Char) (cs : List Char) (k : Nat) (v : String),
      isIdentStart c = true → 1 ≤ k → k ≤ ((c :: cs).takeWhile isIdentChar).length →
      envGet env (String.mk ((c :: cs).take k)) = some v →
      (∀ j, k < j → j ≤ ((c :: cs).takeWhile isIdentChar).length →
        envGet env (String.mk ((c :: cs).take j)) = none) →
      bareScan env ('$' :: c :: cs) = v.toList ++ bareScan env ((c :: cs).drop k))
    ∧ (∀ (env : Env) (c : Char) (cs : List Char),
      isIdentStart c = true →
      (∀ j, 1 ≤ j → j ≤ ((c :: cs).takeWhile isIdentChar).length →
        envGet env (String.mk ((c :: cs).take j)) = none) →
      bareScan env ('$' :: c :: cs) = '$' :: bareScan env (c :: cs))
    ∧ (∀ (env : Env) (y : Char) (l : List Char),
      isIdentStart y = false → bareScan env ('$' :: y :: l) = '$' :: bareScan env (y :: l))
    ∧ (∀ (env : Env) (x : Char) (l : List Char),
      x ≠ '$' → bareScan env (x :: l) = x :: bareScan env l)
    ∧ expand_vars [("A", "1"), ("B", "2")] "pre$A$Bp" = "pre12p"
    ∧ expand_vars [("A", "1"), ("B", "2")] "${A}${B}" = "12" := by
  refine ⟨?_, ?_, ?_, ?_, rfl, rfl⟩
  · intro env c cs k v hstart hk1 hkrun hv hmax
    have hback := backoff_found env (c :: cs) k v hk1
      (((c :: cs).takeWhile isIdentChar).length) hkrun hv hmax
    have hcongr : bareScanF env (cs.length + 1) ((c :: cs).drop k) =
        bareScan env ((c :: cs).drop k) := by
      simp only [bareScan]
      refine bareScanF_congr env _ _ _ ?_ (le_refl _)
      simp only [List.length_drop, List.length_cons]
      omega
    simp only [bareScan, List.length_cons]
    rw [bareScanF_dollar, if_pos hstart, hback]
    dsimp only
    rw [hcongr]
    rfl
  · intro env c cs hstart hmax
    have hback := backoff_none env (c :: cs) (((c :: cs).takeWhile isIdentChar).length) hmax
    simp only [bareScan, List.length_cons]
    rw [bareScanF_dollar, if_pos hstart, hback]
  · intro env y l hy
    simp only [bareScan, List.length_cons]
    rw [bareScanF_dollar, if_neg (by simp [hy])]
  · intro env x l hx
    simp only [bareScan, List.length_cons]
    rw [bareScanF_succ, if_neg hx]

/-- Witness for C1: with `A=1` defined, the scan of `$A+` replaces `$A` by
`1` and continues after the name. -/
theorem C1_longest_match_backoff_witness :
    bareScan [("A", "1")] ('$' :: 'A' :: ['+']) =
      ("1" : String).toList ++ bareScan [("A", "1")] (('A' :: ['+']).drop 1) :=
  C1_longest_match_backoff.1 [("A", "1")] 'A' ['+'] 1 "1" (by decide) (by decide)
    (by decide) (by decide)
    (fun j h1 h2 => absurd h1 (by
      rw [show (List.takeWhile isIdentChar ['A', '+']).length = 1 from by decide] at h2
      omega))

/-- Claim C2 counterexample: a line consisting only of a redirection
operator with a target and no leading command name does NOT raise
`EmptyCommand`; it succeeds, producing a command named `>`. -/
theorem C2_redirection_only_line_ok :
    process "> out" [] = .ok [⟨">", ["out"], none, none, false, none, false⟩] := rfl

/-- Claim C2 (amended): `process` returns an error exactly when the
tokenizer hits end of input inside a quote (and then the error is the
unclosed-quote `Quote` error) or some pipeline group is empty (and then the
error is `EmptyCommand`); empty groups arise from adjacent pipes or a
leading pipe, but NOT from a line consisting only of redirection operators,
which parses successfully with the operator as the command name. -/
theorem C2_process_error_characterization :
    ∀ (line : String) (env : Env),
      (∀ e, tokenize line = .error e →
        e = CliError.Quote "unclosed quote" ∧ process line env = .error e)
      ∧ (∀ raw, tokenize line = .ok raw →
          (((∃ e, process line env = .error e) ↔ [] ∈ split_on_pipes_tokens raw)
           ∧ (∀ e, process line env = .error e → e = CliError.EmptyCommand))) := by
  intro line env
  constructor
  · intro e he
    refine ⟨tokenize_error line e he, ?_⟩
    simp only [process, he]
  · intro raw hraw
    have hp : process line env = processParts env (split_on_pipes_tokens raw) := by
      simp only [process, hraw]
    rw [hp]
    exact processParts_error env (split_on_pipes_tokens raw)

/-- Witness for C2: the line `|` tokenizes successfully, its split contains
an empty group, and processing it indeed fails with `EmptyCommand`. -/
theorem C2_process_error_characterization_witness :
    process "|" [] = .error CliError.EmptyCommand := by
  have h := (C2_process_error_characterization "|" []).2 ["|"] (by decide)
  obtain ⟨e, he⟩ := h.1.mpr (by decide)
  have he2 := h.2 e he
  rw [he2] at he
  exact he

/-- Claim C3 counterexample: `produce_command` on the pieces list `[""]`
(reachable from the line consisting of an empty quoted token) succeeds with
an EMPTY name, contradicting the claimed non-emptiness invariant. -/
theorem C3_empty_name_ok :
    produce_command [""] = .ok ⟨"", [], none, none, false, none, false⟩
    ∧ (("" : String) = "") := ⟨rfl, rfl⟩

/-- Claim C3 (amended): `produce_command` fails (with `EmptyCommand`)
exactly on the empty pieces list, and on a non-empty pieces list it succeeds
with the first piece as the name; the name equals the first piece verbatim
and may therefore be the empty string (e.g. pieces `[""]` from an
empty-quoted token), so non-emptiness of the name is not guaranteed. -/
theorem C3_name_is_first_piece :
    ∀ pieces : List String,
      (pieces = [] → produce_command pieces = .error CliError.EmptyCommand)
      ∧ (∀ p rest, pieces = p :: rest →
          ∃ cmd, produce_command pieces = .ok cmd ∧ cmd.name = p) := by
  intro pieces
  constructor
  · intro h
    subst h
    rfl
  · intro p rest h
    subst h
    exact ⟨_, rfl, rfl⟩

/-- Witness for C3: the singleton pieces list `["x"]` produces a command
named `x`. -/
theorem C3_name_is_first_piece_witness :
    ∃ cmd, produce_command ["x"] = .ok cmd ∧ cmd.name = "x" :=
  (C3_name_is_first_piece ["x"]).2 "x" [] rfl

/-- Claim C4: for every environment in which `X` is defined as `42`,
processing the line consisting of the double-quoted token `"\$X"` yields the
single literal string `$X` as the command name, never the value of `X`:
weak-quote unescaping keeps the backslash-dollar pair, and the expander
protects it with a sentinel and restores a literal dollar afterwards. -/
theorem C4_escaped_dollar_literal :
    ∀ (env : Env) (w : String), envGet env "X" = some w →
      process "\"\\$X\"" env = .ok [⟨"$X", [], none, none, false, none, false⟩]
      ∧ ("$X" : String) ≠ "42" :=
  fun _ _ _ => ⟨rfl, by decide⟩

/-- Witness for C4: the concrete environment defining `X=42`. -/
theorem C4_escaped_dollar_literal_witness :
    process "\"\\$X\"" [("X", "42")] = .ok [⟨"$X", [], none, none, false, none, false⟩]
    ∧ ("$X" : String) ≠ "42" :=
  C4_escaped_dollar_literal [("X", "42")] "42" rfl

/-- Claim C5: splitting the raw token sequence on pipes is exactly the
specification-side split (one group per segment at raw tokens equal to `|`,
order preserved, trailing empty group dropped, other empty groups kept); a
quoted pipe token is not a separator because its raw form retains the
quotes; and the line `cat "a|b" | grep a | wc -l` yields exactly the three
descriptors `cat`, `grep`, `wc`. -/
theorem C5_pipe_split :
    (∀ raw, split_on_pipes_tokens raw = dropTrailingEmptyGroup (splitSpecGroups raw))
    ∧ split_on_pipes_tokens ["\"|\""] = [["\"|\""]]
    ∧ (∀ env : Env, process "cat \"a|b\" | grep a | wc -l" env =
        .ok [⟨"cat", ["a|b"], none, none, false, none, false⟩,
             ⟨"grep", ["a"], none, none, false, none, false⟩,
             ⟨"wc", ["-l"], none, none, false, none, false⟩]) := by
  refine ⟨?_, rfl, fun _ => rfl⟩
  intro raw
  rw [split_on_pipes_tokens, splitGo_spec]
  cases hg : splitSpecGroups raw with
  | nil => exact absurd hg (splitSpecGroups_ne_nil raw)
  | cons g gs => simp

/-- Claim C6 counterexample: the piece `0>` is not one of the operators the
claim enumerates, yet it is NOT appended to `args`: it consumes the next
piece as a stdin redirection target (the code treats fd-0 overwrite
redirection as stdin). -/
theorem C6_zero_gt_redirects_stdin :
    produce_command ["cmd", "0>", "f"] =
      .ok ⟨"cmd", [], some "f", none, false, none, false⟩ := rfl

/-- Claim C6 (amended): the first piece is the command name and the
remaining pieces are scanned with one piece of lookahead; `<`/`0<` set
stdin, `>`/`1>` set stdout with append false, `>>`/`1>>` with append true,
`2>`/`2>>` set stderr with append false resp. true; additionally `0>`
consumes the next piece as stdin, while fd-numbered pieces for other
descriptors (`3>`, `0>>`, ...) consume their target and push both operator
and target to `args`; a later redirection of the same stream overwrites an
earlier one; any piece that is neither an enumerated operator nor an
fd-redirect pattern is appended to `args`; `grep foo < in.txt >> out.log`
yields stdin `in.txt` and stdout `out.log` with append true. -/
theorem C6_redirection_parsing :
    (∀ n t : String,
      produce_command [n, "<", t] = .ok ⟨n, [], some t, none, false, none, false⟩
      ∧ produce_command [n, "0<", t] = .ok ⟨n, [], some t, none, false, none, false⟩
      ∧ produce_command [n, ">", t] = .ok ⟨n, [], none, some t, false, none, false⟩
      ∧ produce_command [n, "1>", t] = .ok ⟨n, [], none, some t, false, none, false⟩
      ∧ produce_command [n, ">>", t] = .ok ⟨n, [], none, some t, true, none, false⟩
      ∧ produce_command [n, "1>>", t] = .ok ⟨n, [], none, some t, true, none, false⟩
      ∧ produce_command [n, "2>", t] = .ok ⟨n, [], none, none, false, some t, false⟩
      ∧ produce_command [n, "2>>", t] = .ok ⟨n, [], none, none, false, some t, true⟩
      ∧ produce_command [n, "0>", t] = .ok ⟨n, [], some t, none, false, none, false⟩
      ∧ produce_command [n, "3>", t] = .ok ⟨n, ["3>", t], none, none, false, none, false⟩
      ∧ produce_command [n, "0>>", t] = .ok ⟨n, ["0>>", t], none, none, false, none, false⟩)
    ∧ (∀ n t1 t2 : String,
        produce_command [n, "<", t1, "0<", t2] = .ok ⟨n, [], some t2, none, false, none, false⟩
        ∧ produce_command [n, ">", t1, ">>", t2] = .ok ⟨n, [], none, some t2, true, none, false⟩
        ∧ produce_command [n, "2>>", t1, "2>", t2] =
            .ok ⟨n, [], none, none, false, some t2, false⟩)
    ∧ (∀ p : String,
        (p ≠ "<" ∧ p ≠ "0<" ∧ p ≠ ">" ∧ p ≠ "1>" ∧ p ≠ ">>" ∧ p ≠ "1>>"
          ∧ p ≠ "2>" ∧ p ≠ "2>>") →
        parse_fd_redirect p = none →
        ∀ n : String, produce_command [n, p] = .ok ⟨n, [p], none, none, false, none, false⟩)
    ∧ (∀ env : Env, process "grep foo < in.txt >> out.log" env =
        .ok [⟨"grep", ["foo"], some "in.txt", some "out.log", true, none, false⟩]) := by
  refine ⟨fun n t => ⟨rfl, rfl, rfl, rfl, rfl, rfl, rfl, rfl, rfl, rfl, rfl⟩,
    fun n t1 t2 => ⟨rfl, rfl, rfl⟩, ?_, fun _ => rfl⟩
  intro p h hfd n
  obtain ⟨h1, h2, h3, h4, h5, h6, h7, h8⟩ := h
  rw [produce_command_cons]
  have hp : prodGo initState [p] = ⟨[p], none, none, false, none, false⟩ := by
    simp [prodGo, h1, h2, h3, h4, h5, h6, h7, h8, hfd, initState]
  rw [hp]

/-- Witness for C6: the ordinary piece `foo` is appended to `args`. -/
theorem C6_redirection_parsing_witness :
    produce_command ["grep", "foo"] = .ok ⟨"grep", ["foo"], none, none, false, none, false⟩ :=
  C6_redirection_parsing.2.2.1 "foo"
    ⟨by decide, by decide, by decide, by decide, by decide, by decide, by decide, by decide⟩
    (by decide) "grep"

/-- Claim C7 counterexample: a bare reference to an UNDEFINED variable does
not expand to the empty string; it is left literally in place (only the
braced form of an undefined variable yields the empty string). -/
theorem C7_bare_undefined_literal :
    expand_tokens [] [⟨"$X", TokenMode.Full⟩] = .ok ["$X"]
    ∧ ("$X" : String) ≠ "" := ⟨rfl, by decide⟩

/-- Claim C7 (amended): the expander is a pure total function: it always
returns `Ok` (the `Expansion` error variant is never constructed), with
exactly one output string per input token, in the same order and count; an
undefined variable in braced form `${NAME}` expands to the empty string,
whereas a bare `$NAME` none of whose prefixes is defined is left literal. -/
theorem C7_expander_total :
    (∀ (env : Env) (ts : List Token), expand_tokens env ts = .ok (ts.map (expandPure env)))
    ∧ (∀ (env : Env) (ts : List Token),
        ∃ ss, expand_tokens env ts = .ok ss ∧ ss.length = ts.length)
    ∧ (∀ env : Env, envGet env "X" = none → expand_vars env "${X}" = "") := by
  refine ⟨expand_tokens_eq, ?_, ?_⟩
  · intro env ts
    exact ⟨ts.map (expandPure env), expand_tokens_eq env ts, List.length_map ts _⟩
  · intro env h
    have h1 : expand_vars env "${X}" =
        String.mk (restore (bareScan env ((envGetD env (String.mk ['X']) "").toList ++ []))) :=
      rfl
    have h2 : envGetD env (String.mk ['X']) "" = "" := by
      rw [show String.mk ['X'] = "X" from rfl]
      simp [envGetD, h]
    rw [h1, h2]
    rfl

/-- Witness for C7: in the empty environment, `${X}` expands to the empty
string. -/
theorem C7_expander_total_witness : expand_vars [] "${X}" = "" :=
  C7_expander_total.2.2 [] rfl

/-- Claim C8: a token classified `Raw` passes through the expander
completely unchanged, for every environment; in particular tokenizing
`'$X'`, classifying and expanding yields the literal `$X` for any
environment in which `X` is defined, never the substituted value. -/
theorem C8_raw_passthrough :
    (∀ (env : Env) (t : Token), t.mode = TokenMode.Raw → expand_token env t = .ok t.value)
    ∧ (∀ (env : Env) (v : String), envGet env "X" = some v →
        tokenize_classify_expand env "'$X'" = .ok ["$X"]) := by
  refine ⟨?_, fun _ _ _ => rfl⟩
  intro env t h
  simp [expand_token, expandPure, h]

/-- Witness for C8: a concrete raw token and the concrete environment
defining `X`. -/
theorem C8_raw_passthrough_witness :
    expand_token [("X", "7")] ⟨"ab", TokenMode.Raw⟩ = .ok "ab"
    ∧ tokenize_classify_expand [("X", "7")] "'$X'" = .ok ["$X"] :=
  ⟨C8_raw_passthrough.1 [("X", "7")] ⟨"ab", TokenMode.Raw⟩ rfl,
   C8_raw_passthrough.2 [("X", "7")] "7" rfl⟩

/-- Claim C9 counterexample: classification is NOT idempotent on all `Raw`
values: the raw token `''''` classifies to the `Raw` value `''`, and
re-classifying `''` strips the quotes again, yielding the empty value. -/
theorem C9_reclassify_not_noop :
    handle ["''''"] = .ok [⟨"''", TokenMode.Raw⟩]
    ∧ handle ["''"] = .ok [⟨"", TokenMode.Raw⟩]
    ∧ ("" : String) ≠ "''" := ⟨rfl, rfl, by decide⟩

/-- Claim C9 (amended): re-classifying a value `v` is a no-op provided `v`
is not itself quote-wrapped (it does not both start and end with a single
or a double quote at length at least two) and contains no backslash; the
counterexample shows the quote-wrapped case genuinely fails, and a value
with a backslash is altered by the unquoted unescape rule. -/
theorem C9_reclassify_noop :
    ∀ v : String,
      ¬(v.toList.head? = some squote ∧ v.toList.getLast? = some squote
        ∧ 2 ≤ v.toList.length) →
      ¬(v.toList.head? = some dquote ∧ v.toList.getLast? = some dquote
        ∧ 2 ≤ v.toList.length) →
      bslash ∉ v.toList →
      handle [v] = .ok [⟨v, TokenMode.Full⟩] := by
  intro v h1 h2 h3
  simp only [handle, List.map]
  have hpiece : handlePiece v = ⟨v, TokenMode.Full⟩ := by
    simp only [handlePiece]
    rw [if_neg h1, if_neg h2, unescape_unquoted_id _ h3]
    rfl
  rw [hpiece]

/-- Witness for C9: re-classifying the plain value `abc` is a no-op. -/
theorem C9_reclassify_noop_witness :
    handle ["abc"] = .ok [⟨"abc", TokenMode.Full⟩] :=
  C9_reclassify_noop "abc" (by decide) (by decide) (by decide)

/-- Claim C10: a recognized redirection operator in last position still
yields `Ok`: it consumes no target, assigns `none` to the corresponding
stream (erasing any earlier target for that stream in the segment, while
the append flag keeps the value the operator sets), and the operator itself
does not appear in `args`. -/
theorem C10_trailing_operator_ok :
    ∀ n t : String,
      produce_command [n, "<"] = .ok ⟨n, [], none, none, false, none, false⟩
      ∧ produce_command [n, "0<"] = .ok ⟨n, [], none, none, false, none, false⟩
      ∧ produce_command [n, ">"] = .ok ⟨n, [], none, none, false, none, false⟩
      ∧ produce_command [n, "1>"] = .ok ⟨n, [], none, none, false, none, false⟩
      ∧ produce_command [n, ">>"] = .ok ⟨n, [], none, none, true, none, false⟩
      ∧ produce_command [n, "1>>"] = .ok ⟨n, [], none, none, true, none, false⟩
      ∧ produce_command [n, "2>"] = .ok ⟨n, [], none, none, false, none, false⟩
      ∧ produce_command [n, "2>>"] = .ok ⟨n, [], none, none, false, none, true⟩
      ∧ produce_command [n, "<", t, "<"] = .ok ⟨n, [], none, none, false, none, false⟩
      ∧ produce_command [n, ">", t, ">"] = .ok ⟨n, [], none, none, false, none, false⟩
      ∧ produce_command [n, ">>", t, ">>"] = .ok ⟨n, [], none, none, true, none, false⟩
      ∧ produce_command [n, "2>", t, "2>"] = .ok ⟨n, [], none, none, false, none, false⟩
      ∧ produce_command [n, "2>>", t, "2>>"] = .ok ⟨n, [], none, none, false, none, true⟩ :=
  fun _ _ => ⟨rfl, rfl, rfl, rfl, rfl, rfl, rfl, rfl, rfl, rfl, rfl, rfl, rfl⟩
